import Mathlib

set_option maxRecDepth 8000

/-!
# Verification of the advanced-calculator pipeline (`src/calculator.py`)

This file is a shallow embedding of the core pipeline of the repository's
single source file `calculator.py`: the `Tokenizer` class, the recursive
descent `Parser` class, the `SymbolTable` class, the `evaluate` function
and the `process_expression` driver.

Modelling decisions (all from the source, not from the spec):

* Input strings are modelled as `List Char`; Python numeric values
  (floats) are idealized as `ℚ`.  All concrete values appearing in the
  claims (small integers) are exact in both representations.
* `Tokenizer.tokenize` iterates `re.finditer` over the alternation
  `NUMBER|OPERATOR|PAREN|IDENTIFIER|ASSIGN`.  `finditer` silently skips
  any character at which no alternative matches (this includes
  whitespace and unknown characters alike) — the embedding reproduces
  that skip.
* The parser mutates a cursor (`self.pos`) and an error field
  (`self.error`).  The embedding passes the remaining token list and the
  error flag explicitly.  Python's `SyntaxError` (raised by
  `parse_factor`, caught by `parse_expression`'s `try`) is the
  `PExc.syntaxErr` constructor; it carries the remaining-token list at
  the raise site because `self.pos` survives the unwinding.  Subscripting
  `None` (`token[0]` when `peek()` returned `None`, or `node[0]` when
  `evaluate` receives `None`) raises `TypeError`, which no handler in the
  parser catches: it is the `PExc.typeErr` / `EExc.typeErrE` constructor.
* The mutually recursive parser functions take a fuel argument that
  decreases on every call; the driver supplies `5 * tokens.length + 5`
  fuel, which is proved sufficient on every input the theorems below
  touch (`PExc.outOfFuel` never arises there).
* `float(text)` is modelled by `pyFloat`, exact for every literal the
  `NUMBER` pattern can produce (digits with an optional fractional
  part); on other strings it returns `none` (Python's `ValueError`).
* The `SymbolTable` is its in-memory dict (`name → value`); the
  `load`/`save` file persistence is an external collaborator per the
  spec's §2/§6 and is not part of the core state.
* Python string operations are embedded directly: `str.split('=')`
  (split at every occurrence) is `pySplit`, `str.strip()` is `pyStrip`,
  `'=' in s` is list membership, `token[1] in '+-'` is substring
  (infix) membership.
-/

/-- Token kinds, after `Tokenizer.token_patterns` (declaration order is the
regex alternation priority). -/
inductive TokType
  | NUMBER | OPERATOR | PAREN | IDENTIFIER | ASSIGN
deriving DecidableEq, Repr

/-- A token `(match.lastgroup, match.group(...))`: kind and matched text. -/
abbrev Token := TokType × List Char

/-- `\w` for the ASCII inputs this program receives: letters, digits, `_`. -/
def isWordChar (c : Char) : Bool := c.isAlphanum || c = '_'

/-- Python's `'+-*/'` operator characters. -/
def isOpChar (c : Char) : Bool := c = '+' || c = '-' || c = '*' || c = '/'

/-- Python's substring membership `s in t` (the `in` of
`token[1] in '+-'`). -/
def pyInStr : List Char → List Char → Bool
  | s, [] => s.isEmpty
  | s, c :: t' => s.isPrefixOf (c :: t') || pyInStr s t'

/-- `Tokenizer.tokenize`: scan with `re.finditer` over the alternation
`NUMBER|OPERATOR|PAREN|IDENTIFIER|ASSIGN`.  At each position the first
matching alternative wins (for these patterns no later alternative can
match where an earlier one does); a position where no alternative
matches is skipped without producing a token — whitespace and unknown
characters alike. -/
def tokenize : List Char → List Token
  | [] => []
  | c :: rest =>
    if c.isDigit then
      -- NUMBER: `\d+(\.\d+)?`, greedy
      match h : rest.dropWhile Char.isDigit with
      | '.' :: r2 =>
        if (r2.takeWhile Char.isDigit).isEmpty then
          (TokType.NUMBER, c :: rest.takeWhile Char.isDigit) :: tokenize ('.' :: r2)
        else
          (TokType.NUMBER, (c :: rest.takeWhile Char.isDigit) ++
              '.' :: r2.takeWhile Char.isDigit) ::
            tokenize (r2.dropWhile Char.isDigit)
      | r1 => (TokType.NUMBER, c :: rest.takeWhile Char.isDigit) :: tokenize r1
    else if isOpChar c then (TokType.OPERATOR, [c]) :: tokenize rest
    else if c = '(' || c = ')' then (TokType.PAREN, [c]) :: tokenize rest
    else if c.isAlpha then
      (TokType.IDENTIFIER, c :: rest.takeWhile isWordChar) ::
        tokenize (rest.dropWhile isWordChar)
    else if c = '=' then (TokType.ASSIGN, [c]) :: tokenize rest
    else tokenize rest
  termination_by s => s.length
  decreasing_by
    all_goals simp only [List.length_cons, Nat.lt_succ_iff]
    all_goals first
      | exact Nat.le_refl _
      | exact (List.dropWhile_sublist _).length_le
      | exact h ▸ (List.dropWhile_sublist _).length_le
      | (have h2 : ('.' :: r2).length ≤ rest.length :=
           h ▸ (List.dropWhile_sublist _).length_le
         have h3 : (r2.dropWhile Char.isDigit).length ≤ r2.length :=
           (List.dropWhile_sublist _).length_le
         simp only [List.length_cons] at h2
         omega)

/-- The parse-tree node type.  The Python parser builds tuples
`('number', text)`, `('identifier', name)`, `('bin_op', op, left, right)`;
the children of a `bin_op` can be `None` (when a nested
`parse_expression` caught a `SyntaxError` and returned `None`), hence
`Option Node` children. -/
inductive Node
  | number (text : List Char)
  | identifier (name : List Char)
  | bin_op (op : List Char) (left right : Option Node)

/-- Structured content of the parser's `SyntaxError` messages. -/
inductive PMsg
  | unmatchedParen
  | unexpectedToken (t : Token)
deriving DecidableEq, Repr

/-- Parser-level exceptions.  `syntaxErr` is Python's `SyntaxError`
(caught by `parse_expression`); it carries the remaining tokens at the
raise site, because `self.pos` keeps its value across the unwinding.
`typeErr` is the `TypeError` from subscripting `None` (never caught).
`outOfFuel` is an artifact of the fuel-indexed embedding. -/
inductive PExc
  | syntaxErr (msg : PMsg) (rest : List Token)
  | typeErr
  | outOfFuel
deriving DecidableEq, Repr

/-- `self.error`: `None` or the last caught `SyntaxError`'s message. -/
abbrev ErrFlag := Option PMsg

/-- Result of one parser function: tree-or-`None`, remaining tokens,
current `self.error`. -/
abbrev PRes := Except PExc (Option Node × List Token × ErrFlag)

mutual

/-- `Parser.parse_factor`.  `token = self.peek()` is `None` at end of
input, and `token[0]` then raises `TypeError` (modelled by `typeErr`).
The `Unexpected token` raise does not consume the token, so the carried
remaining-token list still starts with it. -/
def parse_factor : Nat → List Token → ErrFlag → PRes
  | 0, _, _ => .error .outOfFuel
  | _ + 1, [], _ => .error .typeErr
  | fuel + 1, (tt, tv) :: rest, f =>
    if tt = TokType.NUMBER then .ok (some (.number tv), rest, f)
    else if tt = TokType.IDENTIFIER then .ok (some (.identifier tv), rest, f)
    else if tv = ['('] then
      match parse_expression fuel rest f with
      | .error e => .error e
      | .ok (expr, rest', f') =>
        match rest' with
        | (_, tv') :: rest'' =>
          if tv' = [')'] then .ok (expr, rest'', f')
          else .error (.syntaxErr .unmatchedParen rest')
        | [] => .error (.syntaxErr .unmatchedParen rest')
    else .error (.syntaxErr (.unexpectedToken (tt, tv)) ((tt, tv) :: rest))

/-- The `while self.peek() and self.peek()[1] in '*/'` loop of
`Parser.parse_term`.  Python's `in` is substring membership, modelled by
`List.isInfixOf`. -/
def term_loop : Nat → Option Node → List Token → ErrFlag → PRes
  | 0, _, _, _ => .error .outOfFuel
  | _ + 1, node, [], f => .ok (node, [], f)
  | fuel + 1, node, (tt, tv) :: rest, f =>
    if pyInStr tv ['*', '/'] then
      match parse_factor fuel rest f with
      | .error e => .error e
      | .ok (right, rest', f') =>
        term_loop fuel (some (.bin_op tv node right)) rest' f'
    else .ok (node, (tt, tv) :: rest, f)

/-- `Parser.parse_term` (no `try`: exceptions propagate). -/
def parse_term : Nat → List Token → ErrFlag → PRes
  | 0, _, _ => .error .outOfFuel
  | fuel + 1, ts, f =>
    match parse_factor fuel ts f with
    | .error e => .error e
    | .ok (node, rest, f') => term_loop fuel node rest f'

/-- The `while self.peek() and self.peek()[1] in '+-'` loop of
`Parser.parse_expression`. -/
def expr_loop : Nat → Option Node → List Token → ErrFlag → PRes
  | 0, _, _, _ => .error .outOfFuel
  | _ + 1, node, [], f => .ok (node, [], f)
  | fuel + 1, node, (tt, tv) :: rest, f =>
    if pyInStr tv ['+', '-'] then
      match parse_term fuel rest f with
      | .error e => .error e
      | .ok (right, rest', f') =>
        expr_loop fuel (some (.bin_op tv node right)) rest' f'
    else .ok (node, (tt, tv) :: rest, f)

/-- `Parser.parse_expression`: body under `try`, and
`except SyntaxError as se: self.error = str(se); return None`.  The
`TypeError` (`typeErr`) is not a `SyntaxError` and propagates. -/
def parse_expression : Nat → List Token → ErrFlag → PRes
  | 0, _, _ => .error .outOfFuel
  | fuel + 1, ts, f =>
    match
      ((match parse_term fuel ts f with
        | .error e => .error e
        | .ok (node, rest, f') => expr_loop fuel node rest f') : PRes) with
    | .error (.syntaxErr m rest) => .ok (none, rest, some m)
    | .error e => .error e
    | .ok r => .ok r

end

/-- Running a fresh `Parser(tokens)` (`pos = 0`, `error = None`) to its
`parse_expression()` call, with fuel that lemma `C6`-side proofs show
sufficient on all inputs the theorems touch.  Returns the tree and the
final `self.error`. -/
def runParser (ts : List Token) : Except PExc (Option Node × ErrFlag) :=
  match parse_expression (5 * ts.length + 5) ts none with
  | .error e => .error e
  | .ok (t, _, f) => .ok (t, f)

/-- The symbol table's in-memory mapping (`self.table`). -/
abbrev SymbolTable := List Char → Option ℚ

/-- The table of a freshly constructed `SymbolTable` whose backing file
does not exist. -/
def SymbolTable.empty : SymbolTable := fun _ => none

/-- `SymbolTable.set`: `self.table[variable] = value` (the subsequent
`self.save()` writes the external file and cannot change the mapping). -/
def SymbolTable.set (st : SymbolTable) (var : List Char) (value : ℚ) : SymbolTable :=
  fun n => if n = var then some value else st n

/-- `SymbolTable.get`: `self.table.get(variable, None)`. -/
def SymbolTable.get (st : SymbolTable) (var : List Char) : Option ℚ :=
  st var

/-- Exceptions `evaluate` can raise: `NameError` for an undefined
variable, `ZeroDivisionError` from `/` (Python float division by zero
raises; it does not produce an infinity), `ValueError` from `float()`
on a malformed literal, and `TypeError` from `node[0]` when the node is
`None`. -/
inductive EExc
  | nameError (name : List Char)
  | zeroDivisionError
  | valueError (text : List Char)
  | typeErrE
deriving DecidableEq, Repr

/-- The value of a digit string, `'0'`–`'9'` mapping to `0`–`9`. -/
def digitsVal (ds : List Char) : ℕ :=
  ds.foldl (fun a c => 10 * a + (c.toNat - 48)) 0

/-- `float(text)` on the literals this program can build: digits with an
optional single `.` and more digits give the exact decimal value; any
other string is a `ValueError` (`none`).  (Python's `float` also accepts
forms like `1e5` that no `NUMBER` token can carry.) -/
def pyFloat (s : List Char) : Option ℚ :=
  let ip := s.takeWhile Char.isDigit
  let rest := s.dropWhile Char.isDigit
  if ip.isEmpty then none
  else match rest with
    | [] => some (digitsVal ip)
    | '.' :: fp =>
      if fp.isEmpty || !(fp.all Char.isDigit) then none
      else some ((digitsVal ip : ℚ) + digitsVal fp / 10 ^ fp.length)
    | _ => none

/-- The `evaluate` function.  Children of a `bin_op` are evaluated left
before right, then the operator is dispatched by string comparison.
Python returns `None` for an operator string other than the four (no
`else`); that can only be reached with a token text outside `+ - * /`,
which no run of this parser's loops produces, and is modelled as
`typeErrE` (in Python the `None` would raise `TypeError` in any
enclosing arithmetic). -/
def evaluate : Option Node → SymbolTable → Except EExc ℚ
  | none, _ => .error .typeErrE
  | some (.number text), _ =>
    match pyFloat text with
    | some v => .ok v
    | none => .error (.valueError text)
  | some (.identifier name), st =>
    match st.get name with
    | some v => .ok v
    | none => .error (.nameError name)
  | some (.bin_op op l r), st =>
    match evaluate l st with
    | .error e => .error e
    | .ok lv =>
      match evaluate r st with
      | .error e => .error e
      | .ok rv =>
        if op = ['+'] then .ok (lv + rv)
        else if op = ['-'] then .ok (lv - rv)
        else if op = ['*'] then .ok (lv * rv)
        else if op = ['/'] then
          if rv = 0 then .error .zeroDivisionError else .ok (lv / rv)
        else .error .typeErrE

/-- Python's `str.split('=')`: split at every occurrence, keeping empty
parts. -/
def pySplit : List Char → List (List Char)
  | [] => [[]]
  | c :: rest =>
    if c = '=' then [] :: pySplit rest
    else
      match pySplit rest with
      | [] => [[c]]
      | p :: ps => (c :: p) :: ps

/-- The whitespace characters `str.strip()` removes. -/
def isPySpace (c : Char) : Bool :=
  c = ' ' || c = '\t' || c = '\n' || c = '\r' ||
    c = Char.ofNat 11 || c = Char.ofNat 12

/-- Python's `str.strip()`. -/
def pyStrip (s : List Char) : List Char :=
  ((s.dropWhile isPySpace).reverse.dropWhile isPySpace).reverse

/-- The outcome of `process_expression` for one input line:
`"{variable} = {value}"`, `"Result: {result}"`,
`"Parsing error: {parser.error}"`, `"Evaluation error: {e}"`, or an
uncaught exception aborting the call (`crash`). -/
inductive Outcome
  | assignmentResult (var : List Char) (value : ℚ)
  | evaluationResult (value : ℚ)
  | parsingFailure (msg : ErrFlag)
  | evaluationFailure (e : EExc)
  | crash (e : PExc)
deriving DecidableEq, Repr

/-- An outcome that is not a success: a reported lexing/parsing/
evaluation failure, or an uncontrolled abort. -/
def Outcome.isFailure : Outcome → Bool
  | .assignmentResult _ _ => false
  | .evaluationResult _ => false
  | _ => true

/-- The assignment branch of `process_expression` (everything after
`variable`/`expression` have been computed): re-tokenize the expression,
parse, and on `parse_tree and not parser.error` evaluate and
`symbol_table.set`; a caught evaluation exception or a parse error
leaves the table untouched; an uncaught `TypeError` from the parser
aborts. -/
def assign_step (var expression : List Char) (st : SymbolTable) :
    Outcome × SymbolTable :=
  match runParser (tokenize expression) with
  | .error e => (.crash e, st)
  | .ok (some t, none) =>
    match evaluate (some t) st with
    | .ok v => (.assignmentResult var v, st.set var v)
    | .error e => (.evaluationFailure e, st)
  | .ok (_, f) => (.parsingFailure f, st)

/-- The non-assignment branch: parse the whole line's tokens
(`parse_to_file` checks `self.error` first), then evaluate inside
`try/except Exception`. -/
def expr_step (ts : List Token) (st : SymbolTable) :
    Outcome × SymbolTable :=
  match runParser ts with
  | .error e => (.crash e, st)
  | .ok (_, some m) => (.parsingFailure (some m), st)
  | .ok (t, none) =>
    match evaluate t st with
    | .ok v => (.evaluationResult v, st)
    | .error e => (.evaluationFailure e, st)

/-- `process_expression`.  The initial `tokenize_to_file` of the full
line cannot fail (the scan is total), so the `Tokenization error`
branch is dead; with `'='` in the line, `parts[0]`/`parts[1]` of
`input_string.split('=')` are stripped (with `'='` present the split has
at least two parts, so `getD` equals Python's subscripts). -/
def process_expression (input : List Char) (st : SymbolTable) :
    Outcome × SymbolTable :=
  if '=' ∈ input then
    let parts := pySplit input
    assign_step (pyStrip (parts.getD 0 [])) (pyStrip (parts.getD 1 [])) st
  else
    expr_step (tokenize input) st

/-- Splitting at the first `'='` only (Python's `split('=', 1)`): left
part and the entire remainder.  This is the split the specification
describes; `process_expression` itself uses `pySplit` (every
occurrence) and takes `parts[1]`. -/
def splitFirstEq : List Char → List Char × List Char
  | [] => ([], [])
  | c :: rest =>
    if c = '=' then ([], rest)
    else ((splitFirstEq rest).1.cons c, (splitFirstEq rest).2)

/-- Modelled from the spec: the driver as the specification words it —
"left side up to the first `=`, right side the remainder": the variable
is the trimmed text left of the first `=` and the expression lexed,
parsed and evaluated is the entire trimmed remainder of the line.  Used
only to compare against `process_expression`'s actual behavior. -/
def process_expression_spec_split (input : List Char) (st : SymbolTable) :
    Outcome × SymbolTable :=
  if '=' ∈ input then
    assign_step (pyStrip (splitFirstEq input).1) (pyStrip (splitFirstEq input).2) st
  else
    expr_step (tokenize input) st

/-! ## Basic lemmas about the driver's string handling -/

theorem pySplit_ne_nil (s : List Char) : pySplit s ≠ [] := by
  induction s with
  | nil => simp [pySplit]
  | cons c rest ih =>
    by_cases h : c = '='
    · simp [pySplit, h]
    · simp only [pySplit, if_neg h]
      rcases hs : pySplit rest with _ | ⟨p, ps⟩
      · simp
      · simp

theorem pySplit_no_eq {s : List Char} (h : '=' ∉ s) : pySplit s = [s] := by
  induction s with
  | nil => rfl
  | cons c rest ih =>
    have hc : c ≠ '=' := fun hc => h (hc ▸ List.mem_cons_self c rest)
    have hr : '=' ∉ rest := fun hr => h (List.mem_cons_of_mem c hr)
    simp only [pySplit, if_neg hc, ih hr]

theorem pySplit_append {a : List Char} (b : List Char) (h : '=' ∉ a) :
    pySplit (a ++ '=' :: b) = a :: pySplit b := by
  induction a with
  | nil => simp [pySplit]
  | cons c a' ih =>
    have hc : c ≠ '=' := fun hc => h (hc ▸ List.mem_cons_self c a')
    have ha : '=' ∉ a' := fun ha => h (List.mem_cons_of_mem c ha)
    simp only [List.cons_append, pySplit, if_neg hc, List.append_eq]
    rw [ih ha]

/-- With `'='` in the line, the driver's variable and expression parts:
`parts[0]` is the text before the first `'='` and `parts[1]` the text
between the first and the second `'='` (or up to the end). -/
theorem process_expression_assign {lhs rhs : List Char}
    (st : SymbolTable) (hl : '=' ∉ lhs) :
    process_expression (lhs ++ '=' :: rhs) st =
      assign_step (pyStrip lhs) (pyStrip ((pySplit rhs).getD 0 [])) st := by
  have hmem : '=' ∈ lhs ++ '=' :: rhs := by simp
  unfold process_expression
  rw [if_pos hmem, pySplit_append rhs hl]
  rcases hs : pySplit rhs with _ | ⟨p, ps⟩
  · exact absurd hs (pySplit_ne_nil rhs)
  · simp

/-! ## Environment preservation on failure (towards C5) -/

theorem assign_step_failure (var expression : List Char) (st : SymbolTable) :
    (assign_step var expression st).1.isFailure = true →
    (assign_step var expression st).2 = st := by
  unfold assign_step
  split
  · intro _; rfl
  · split
    · intro h; simp [Outcome.isFailure] at h
    · intro _; rfl
  · intro _; rfl

theorem expr_step_failure (ts : List Token) (st : SymbolTable) :
    (expr_step ts st).1.isFailure = true → (expr_step ts st).2 = st := by
  unfold expr_step
  split
  · intro _; rfl
  · intro _; rfl
  · split
    · intro h; simp [Outcome.isFailure] at h
    · intro _; rfl

/-! ## Inversion of a successful parse-and-evaluate -/

theorem expr_step_eval_inv (ts : List Token) (st : SymbolTable) (v : ℚ)
    (hv : (expr_step ts st).1 = Outcome.evaluationResult v) :
    ∃ t, runParser ts = .ok (some t, none) ∧ evaluate (some t) st = .ok v := by
  unfold expr_step at hv
  rcases hr : runParser ts with e | ⟨t, f⟩
  · rw [hr] at hv
    simp at hv
  · rw [hr] at hv
    rcases f with _ | m
    · rcases t with _ | t
      · simp [evaluate] at hv
      · simp only [] at hv
        rcases he : evaluate (some t) st with e | w
        · rw [he] at hv
          simp at hv
        · rw [he] at hv
          simp at hv
          exact ⟨t, rfl, by rw [he, hv]⟩
    · simp at hv

theorem assign_step_of_parse_eval (var expression : List Char) (st : SymbolTable)
    (v : ℚ) (t : Node)
    (hp : runParser (tokenize expression) = .ok (some t, none))
    (he : evaluate (some t) st = .ok v) :
    assign_step var expression st =
      (Outcome.assignmentResult var v, st.set var v) := by
  unfold assign_step
  rw [hp]
  simp [he]

/-- The driver on an assignment line whose right-hand side (the part up
to the next `'='`, here none) parses and evaluates successfully. -/
theorem process_assign_of_rhs_eval {lhs rhs : List Char} (st : SymbolTable)
    (v : ℚ) (hl : '=' ∉ lhs) (hr : '=' ∉ rhs)
    (hv : (expr_step (tokenize (pyStrip rhs)) st).1 = Outcome.evaluationResult v) :
    process_expression (lhs ++ '=' :: rhs) st =
      (Outcome.assignmentResult (pyStrip lhs) v, st.set (pyStrip lhs) v) := by
  obtain ⟨t, hp, he⟩ := expr_step_eval_inv _ _ _ hv
  rw [process_expression_assign st hl, pySplit_no_eq hr]
  exact assign_step_of_parse_eval _ _ st v t hp he

/-! ## Predicates on parse trees (for C8) -/

/-- The tree contains (at an evaluable position) an identifier with no
binding in the given table. -/
def hasUnbound : Option Node → SymbolTable → Prop
  | none, _ => False
  | some (.number _), _ => False
  | some (.identifier n), st => st.get n = none
  | some (.bin_op _ l r), st => hasUnbound l st ∨ hasUnbound r st

/-- A fully formed tree as the grammar produces it, restricted to the
total operators: no `None` children, every number literal well-formed,
every operator one of `+ - *` (no `/`, whose division-by-zero failure
can pre-empt an undefined-variable failure). -/
def cleanTree : Option Node → Prop
  | none => False
  | some (.number s) => (pyFloat s).isSome = true
  | some (.identifier _) => True
  | some (.bin_op op l r) =>
    (op = ['+'] ∨ op = ['-'] ∨ op = ['*']) ∧ cleanTree l ∧ cleanTree r

/-- The identifier occurs in the tree. -/
def mentionsId : Option Node → List Char → Prop
  | none, _ => False
  | some (.number _), _ => False
  | some (.identifier n), m => n = m
  | some (.bin_op _ l r), m => mentionsId l m ∨ mentionsId r m

theorem evaluate_error_of_unbound :
    ∀ (t : Option Node) (st : SymbolTable), hasUnbound t st →
      ∃ e, evaluate t st = .error e
  | none, _, hu => by simp only [hasUnbound] at hu
  | some (.number _), _, hu => by simp only [hasUnbound] at hu
  | some (.identifier n), st, hu => by
    simp only [hasUnbound] at hu
    exact ⟨.nameError n, by simp [evaluate, hu]⟩
  | some (.bin_op op l r), st, hu => by
    simp only [hasUnbound] at hu
    rcases hu with hl | hr2
    · obtain ⟨e, he⟩ := evaluate_error_of_unbound l st hl
      exact ⟨e, by simp [evaluate, he]⟩
    · rcases hev : evaluate l st with e | w
      · exact ⟨e, by simp [evaluate, hev]⟩
      · obtain ⟨e, he⟩ := evaluate_error_of_unbound r st hr2
        exact ⟨e, by simp [evaluate, hev, he]⟩

theorem evaluate_ok_of_clean :
    ∀ (t : Option Node) (st : SymbolTable), cleanTree t → ¬ hasUnbound t st →
      ∃ v, evaluate t st = .ok v
  | none, _, hc, _ => by simp only [cleanTree] at hc
  | some (.number s), st, hc, _ => by
    simp only [cleanTree] at hc
    rcases hp : pyFloat s with _ | v
    · rw [hp] at hc; simp at hc
    · exact ⟨v, by simp [evaluate, hp]⟩
  | some (.identifier n), st, _, hu => by
    simp only [hasUnbound] at hu
    rcases hg : st.get n with _ | v
    · exact absurd hg hu
    · exact ⟨v, by simp [evaluate, hg]⟩
  | some (.bin_op op l r), st, hc, hu => by
    simp only [cleanTree] at hc
    obtain ⟨hop, hcl, hcr⟩ := hc
    simp only [hasUnbound] at hu
    have hul : ¬ hasUnbound l st := fun h => hu (Or.inl h)
    have hur : ¬ hasUnbound r st := fun h => hu (Or.inr h)
    obtain ⟨w1, h1⟩ := evaluate_ok_of_clean l st hcl hul
    obtain ⟨w2, h2⟩ := evaluate_ok_of_clean r st hcr hur
    rcases hop with h | h | h <;> subst h
    · exact ⟨w1 + w2, by simp [evaluate, h1, h2]⟩
    · exact ⟨w1 - w2, by simp [evaluate, h1, h2]⟩
    · exact ⟨w1 * w2, by simp [evaluate, h1, h2]⟩

theorem evaluate_nameError_of_unbound_clean :
    ∀ (t : Option Node) (st : SymbolTable), hasUnbound t st → cleanTree t →
      ∃ n, evaluate t st = .error (.nameError n) ∧ st.get n = none ∧ mentionsId t n
  | none, _, hu, _ => by simp only [hasUnbound] at hu
  | some (.number _), _, hu, _ => by simp only [hasUnbound] at hu
  | some (.identifier n), st, hu, _ => by
    simp only [hasUnbound] at hu
    exact ⟨n, by simp [evaluate, hu], hu, by simp [mentionsId]⟩
  | some (.bin_op op l r), st, hu, hc => by
    simp only [hasUnbound] at hu
    simp only [cleanTree] at hc
    obtain ⟨hop, hcl, hcr⟩ := hc
    by_cases hl : hasUnbound l st
    · obtain ⟨n, he, hn, hm⟩ := evaluate_nameError_of_unbound_clean l st hl hcl
      exact ⟨n, by simp [evaluate, he], hn, by simp only [mentionsId]; exact Or.inl hm⟩
    · have hr2 : hasUnbound r st := hu.resolve_left hl
      obtain ⟨w, hw⟩ := evaluate_ok_of_clean l st hcl hl
      obtain ⟨n, he, hn, hm⟩ := evaluate_nameError_of_unbound_clean r st hr2 hcr
      exact ⟨n, by simp [evaluate, hw, he], hn, by simp only [mentionsId]; exact Or.inr hm⟩

/-! ## Claims -/

/-- C1: the claim says a character matching no token pattern (such as
`'&'`) is a lexing failure naming the character and position, and that
a returned token sequence covers every non-whitespace character.  The
code's `re.finditer` scan instead skips such characters silently (the
`Tokenization error` handler in `process_expression` is dead code):
`"2 & 3"` lexes to the two `NUMBER` tokens `2` and `3`, covering `2` and
`3` but not `&`, and the line is then *successfully* evaluated (the
parser consumes the leading `2` and ignores the trailing `3`), printing
`Result: 2.0` — no `LexError` exists anywhere in the program. -/
theorem C1_unknown_char_skipped_without_error :
    tokenize ("2 & 3".toList) = [(TokType.NUMBER, ['2']), (TokType.NUMBER, ['3'])] ∧
    (process_expression ("2 & 3".toList) SymbolTable.empty).1 = Outcome.evaluationResult 2 ∧
    ((tokenize ("2 & 3".toList)).map Prod.snd).flatten = ['2', '3'] ∧
    ("2 & 3".toList).filter (fun c => !(isPySpace c)) = ['2', '&', '3'] :=
  ⟨by with_unfolding_all decide, by with_unfolding_all decide,
   by with_unfolding_all decide, by with_unfolding_all decide⟩

/-- C2: the claim says a missing factor (e.g. after `"2 +"`, or the
empty line) yields a structured parse failure naming "end of input".
In the code, `parse_factor` begins with `token = self.peek()`; at end of
input `peek()` returns `None` and `token[0]` raises `TypeError`, which
the `except SyntaxError` handler does not catch: processing the line
aborts with an uncaught exception, and no outcome is produced. -/
theorem C2_missing_factor_uncaught_typeerror :
    (process_expression ("2 +".toList) SymbolTable.empty).1 = Outcome.crash PExc.typeErr ∧
    (process_expression ("".toList) SymbolTable.empty).1 = Outcome.crash PExc.typeErr ∧
    (process_expression ("2 +".toList) SymbolTable.empty).2 = SymbolTable.empty :=
  ⟨by with_unfolding_all decide, by with_unfolding_all decide,
   by with_unfolding_all rfl⟩

/-- C3 counterexample: the claim says `"4 / 0"` produces the standard
floating-point division-by-zero value (e.g. positive infinity) as a
*successful* result.  In Python, float division by zero raises
`ZeroDivisionError`; `process_expression` catches it and reports an
evaluation failure (`Evaluation error: float division by zero`), not a
successful result. -/
theorem C3_counterexample_div_zero_is_failure :
    (process_expression ("4 / 0".toList) SymbolTable.empty).1 =
      Outcome.evaluationFailure EExc.zeroDivisionError ∧
    (process_expression ("4 / 0".toList) SymbolTable.empty).1.isFailure = true :=
  ⟨by with_unfolding_all decide, by with_unfolding_all decide⟩

/-- C3 (amended): evaluating a division whose right operand evaluates
to zero raises `ZeroDivisionError`, reported as an evaluation failure
(not a successful value); the outcome is deterministic — the same
failure on every evaluation, for every table state — and the
Environment is unchanged. -/
theorem C3_div_zero_deterministic_failure :
    (∀ (l r : Option Node) (st : SymbolTable) (v : ℚ),
      evaluate l st = .ok v → evaluate r st = .ok 0 →
      evaluate (some (.bin_op ['/'] l r)) st = .error .zeroDivisionError)
  ∧ (∀ st : SymbolTable, process_expression ("4 / 0".toList) st =
      (Outcome.evaluationFailure EExc.zeroDivisionError, st)) := by
  constructor
  · intro l r st v hl hr
    simp [evaluate, hl, hr]
  · intro st
    with_unfolding_all rfl

theorem C3_div_zero_witness :
    evaluate (some (.bin_op ['/'] (some (.number ['4'])) (some (.number ['0']))))
      SymbolTable.empty = .error .zeroDivisionError :=
  C3_div_zero_deterministic_failure.1 _ _ _ 4
    (by with_unfolding_all rfl) (by with_unfolding_all rfl)

/-- C5: whenever processing a line ends in a failure — a reported
parsing or evaluation failure, or even the uncaught `TypeError` abort —
the symbol table after `process_expression` is exactly the table
before: `symbol_table.set` is only reached after parse and evaluation
both succeeded on an assignment line. -/
theorem C5_failure_preserves_environment (input : List Char) (st : SymbolTable)
    (h : (process_expression input st).1.isFailure = true) :
    (process_expression input st).2 = st := by
  unfold process_expression at h ⊢
  by_cases hm : '=' ∈ input
  · rw [if_pos hm] at h ⊢
    exact assign_step_failure _ _ _ h
  · rw [if_neg hm] at h ⊢
    exact expr_step_failure _ _ h

theorem C5_failure_witness :
    (process_expression ("+".toList) SymbolTable.empty).2 = SymbolTable.empty :=
  C5_failure_preserves_environment _ _ (by with_unfolding_all decide)

/-- C10: `SymbolTable.set` is total (it always succeeds — a dict item
assignment) and frame-preserving: after `set x v`, `get x` returns `v`
and `get y` for any other key `y` returns exactly what it returned
before. -/
theorem C10_set_total_frame_preserving (st : SymbolTable) (x : List Char) (v : ℚ) :
    (st.set x v).get x = some v ∧
    ∀ y, y ≠ x → (st.set x v).get y = st.get y := by
  refine ⟨?_, ?_⟩
  · simp [SymbolTable.set, SymbolTable.get]
  · intro y hy
    simp [SymbolTable.set, SymbolTable.get, hy]

theorem C10_witness :
    (SymbolTable.empty.set ("a".toList) 1).get ("a".toList) = some 1 ∧
    (SymbolTable.empty.set ("a".toList) 1).get ("b".toList) =
      SymbolTable.empty.get ("b".toList) :=
  ⟨(C10_set_total_frame_preserving SymbolTable.empty ("a".toList) 1).1,
   (C10_set_total_frame_preserving SymbolTable.empty ("a".toList) 1).2
     ("b".toList) (by decide)⟩

/-- C4 counterexample: the claim says that on a line with two `'='`
characters the expression lexed, parsed and evaluated is the *entire*
remainder after the first `'='`.  On `"x = 2 + = 7"` the code takes
`parts[1]` of `split('=')` — the text `" 2 + "` strictly between the
first and second `'='` — whose parse aborts with the uncaught
`TypeError` (missing factor at end of input), while processing the
entire remainder `"2 + = 7"` (the spec-worded driver
`process_expression_spec_split`) yields a reported parsing failure at
the unexpected `'='` token.  The two behaviors differ, so the evaluated
expression is not the entire remainder. -/
theorem C4_counterexample_not_entire_remainder :
    (process_expression ("x = 2 + = 7".toList) SymbolTable.empty).1 =
      Outcome.crash PExc.typeErr ∧
    (process_expression_spec_split ("x = 2 + = 7".toList) SymbolTable.empty).1 =
      Outcome.parsingFailure (some (.unexpectedToken (TokType.ASSIGN, ['=']))) :=
  ⟨by with_unfolding_all decide, by with_unfolding_all decide⟩

/-- C4 (amended): on a line with two or more `'='` characters the
driver splits at every `'='`; the variable name is the trimmed text
left of the first `'='`, and the expression lexed, parsed and evaluated
is the trimmed text between the first and the second `'='` — everything
after the second `'='` is discarded. -/
theorem C4_split_between_first_and_second_eq (a b c : List Char)
    (st : SymbolTable) (ha : '=' ∉ a) (hb : '=' ∉ b) :
    process_expression (a ++ '=' :: (b ++ '=' :: c)) st =
      assign_step (pyStrip a) (pyStrip b) st := by
  rw [process_expression_assign st ha, pySplit_append c hb]
  rfl

theorem C4_split_witness :
    process_expression ("x=2=9".toList) SymbolTable.empty =
      assign_step (pyStrip ("x".toList)) (pyStrip ("2".toList)) SymbolTable.empty :=
  C4_split_between_first_and_second_eq ("x".toList) ("2".toList) ("9".toList)
    SymbolTable.empty (by decide) (by decide)

/-- C7: a well-formed assignment line (no further `'='` in either part)
whose right-hand side parses and evaluates to `v` stores `v` under the
trimmed left-hand side, reporting the assignment; the stored value is
observable by later lines: after `"x = 5"` the table maps `x` to `5`,
`"x + 1"` then evaluates to `6`, and re-assignment overwrites — after
`"x = 10"`, `"x"` evaluates to `10`. -/
theorem C7_assignment_stores_and_persists :
    (∀ (lhs rhs : List Char) (st : SymbolTable) (v : ℚ), '=' ∉ lhs → '=' ∉ rhs →
      (expr_step (tokenize (pyStrip rhs)) st).1 = Outcome.evaluationResult v →
      process_expression (lhs ++ '=' :: rhs) st =
        (Outcome.assignmentResult (pyStrip lhs) v, st.set (pyStrip lhs) v))
  ∧ (process_expression ("x = 5".toList) SymbolTable.empty).1 =
      Outcome.assignmentResult ("x".toList) 5
  ∧ ((process_expression ("x = 5".toList) SymbolTable.empty).2).get ("x".toList) =
      some 5
  ∧ (process_expression ("x + 1".toList)
      (process_expression ("x = 5".toList) SymbolTable.empty).2).1 =
      Outcome.evaluationResult 6
  ∧ (process_expression ("x".toList)
      (process_expression ("x = 10".toList)
        (process_expression ("x = 5".toList) SymbolTable.empty).2).2).1 =
      Outcome.evaluationResult 10 := by
  refine ⟨?_, ?_, ?_, ?_, ?_⟩
  · intro lhs rhs st v hl hr hv
    exact process_assign_of_rhs_eval st v hl hr hv
  · with_unfolding_all decide
  · with_unfolding_all decide
  · with_unfolding_all decide
  · with_unfolding_all decide

theorem C7_witness :
    process_expression ("x".toList ++ '=' :: "5".toList) SymbolTable.empty =
      (Outcome.assignmentResult (pyStrip ("x".toList)) 5,
        SymbolTable.empty.set (pyStrip ("x".toList)) 5) :=
  C7_assignment_stores_and_persists.1 ("x".toList) ("5".toList)
    SymbolTable.empty 5 (by decide) (by decide)
    (by with_unfolding_all decide)

/-- C9: the driver never validates the left-hand side of an assignment:
for any text left of the first `'='` — also text that is no valid
IDENTIFIER, such as `"2"` in `"2 = 3"`, or the empty string in
`"= 3"` — the trimmed text becomes a table key when the right-hand side
evaluates successfully, and the driver reports a successful assignment
outcome. -/
theorem C9_lhs_unvalidated_becomes_key :
    (∀ (lhs rhs : List Char) (st : SymbolTable) (v : ℚ), '=' ∉ lhs → '=' ∉ rhs →
      (expr_step (tokenize (pyStrip rhs)) st).1 = Outcome.evaluationResult v →
      (process_expression (lhs ++ '=' :: rhs) st).1 =
        Outcome.assignmentResult (pyStrip lhs) v ∧
      ((process_expression (lhs ++ '=' :: rhs) st).2).get (pyStrip lhs) = some v)
  ∧ (process_expression ("2 = 3".toList) SymbolTable.empty).1 =
      Outcome.assignmentResult ("2".toList) 3
  ∧ ((process_expression ("2 = 3".toList) SymbolTable.empty).2).get ("2".toList) =
      some 3
  ∧ (process_expression ("= 3".toList) SymbolTable.empty).1 =
      Outcome.assignmentResult [] 3
  ∧ ((process_expression ("= 3".toList) SymbolTable.empty).2).get [] = some 3 := by
  refine ⟨?_, ?_, ?_, ?_, ?_⟩
  · intro lhs rhs st v hl hr hv
    rw [process_assign_of_rhs_eval st v hl hr hv]
    exact ⟨rfl, by simp [SymbolTable.set, SymbolTable.get]⟩
  · with_unfolding_all decide
  · with_unfolding_all decide
  · with_unfolding_all decide
  · with_unfolding_all decide

theorem C9_witness :
    ((process_expression ("2".toList ++ '=' :: "3".toList) SymbolTable.empty).1 =
      Outcome.assignmentResult (pyStrip ("2".toList)) 3) ∧
    ((process_expression ("2".toList ++ '=' :: "3".toList)
        SymbolTable.empty).2).get (pyStrip ("2".toList)) = some 3 :=
  C9_lhs_unvalidated_becomes_key.1 ("2".toList) ("3".toList)
    SymbolTable.empty 3 (by decide) (by decide)
    (by with_unfolding_all decide)

/-- C8 counterexample: the claim says *every* expression containing an
unbound identifier evaluates to an `UndefinedVariable` failure naming
that identifier.  On `"1 / 0 + x"` with an empty table, `evaluate`
walks left before right and the division by zero raises first: the
reported failure is the `ZeroDivisionError`, not a `NameError` naming
`x`, although `x` is unbound and present.  (The table is unchanged.) -/
theorem C8_counterexample_zero_div_preempts :
    (process_expression ("1 / 0 + x".toList) SymbolTable.empty).1 =
      Outcome.evaluationFailure EExc.zeroDivisionError ∧
    SymbolTable.empty.get ("x".toList) = none ∧
    (process_expression ("1 / 0 + x".toList) SymbolTable.empty).2 =
      SymbolTable.empty :=
  ⟨by with_unfolding_all decide, rfl, by with_unfolding_all rfl⟩

/-- C8 (amended): evaluating any tree containing an unbound identifier
never succeeds — it fails with some evaluation failure; the failure is
`NameError` (undefined variable) naming an unbound identifier occurring
in the tree whenever no earlier-evaluated subterm fails first — in
particular for every fully formed tree over `+ - *` with well-formed
literals; and at the pipeline level (`"x + 1"` on an empty table) the
reported outcome is the evaluation failure naming `x` with the table
unchanged. -/
theorem C8_unbound_identifier_evaluation_fails :
    (∀ (t : Option Node) (st : SymbolTable), hasUnbound t st →
      ∃ e, evaluate t st = .error e)
  ∧ (∀ (t : Option Node) (st : SymbolTable), hasUnbound t st → cleanTree t →
      ∃ n, evaluate t st = .error (.nameError n) ∧ st.get n = none ∧
        mentionsId t n)
  ∧ (process_expression ("x + 1".toList) SymbolTable.empty).1 =
      Outcome.evaluationFailure (EExc.nameError ("x".toList))
  ∧ (process_expression ("x + 1".toList) SymbolTable.empty).2 =
      SymbolTable.empty := by
  refine ⟨evaluate_error_of_unbound, evaluate_nameError_of_unbound_clean,
    ?_, ?_⟩
  · with_unfolding_all decide
  · with_unfolding_all rfl

theorem C8_witness :
    ∃ n, evaluate (some (.identifier ("y".toList))) SymbolTable.empty =
        .error (.nameError n) ∧ SymbolTable.empty.get n = none ∧
        mentionsId (some (.identifier ("y".toList))) n :=
  C8_unbound_identifier_evaluation_fails.2.1
    (some (.identifier ("y".toList))) SymbolTable.empty
    (by simp [hasUnbound, SymbolTable.get, SymbolTable.empty])
    (by simp [cleanTree])

/-! ## C6: reference semantics for variable-free arithmetic expressions

The claim quantifies over all valid variable-free arithmetic
expressions.  We realize that family as the spec-side syntax `AExp`
(number literals and the four binary operators), printed to concrete
text by a minimal-parenthesization printer: a subterm is parenthesized
exactly when its operator binds looser than its context demands, and
the right operand is printed one level tighter than its operator,
reflecting left associativity.  The printed language therefore contains
exactly the precedence-relevant strings (`2+3*4`, `(2+3)*4`, …), and
the theorem states that the pipeline maps every printed expression to
its mathematical denotation. -/

/-- Spec-side arithmetic expressions: digit-string literals and the
four binary operators; no identifiers. -/
inductive AExp
  | num (ds : List Char)
  | bop (op : Char) (l r : AExp)

/-- Well-formed: literals are nonempty digit strings, operators among
`+ - * /`. -/
def AExp.wf : AExp → Bool
  | .num ds => !ds.isEmpty && ds.all Char.isDigit
  | .bop op l r =>
    (op == '+' || op == '-' || op == '*' || op == '/') && l.wf && r.wf

/-- Operator precedence: additive 1, multiplicative 2. -/
def opPrec (op : Char) : Nat := if op == '+' || op == '-' then 1 else 2

/-- Minimal-parenthesization printer (see section comment). -/
def printCtx (ctx : Nat) : AExp → List Char
  | .num ds => ds
  | .bop op l r =>
    if opPrec op < ctx then
      '(' :: (printCtx (opPrec op) l ++ op :: printCtx (opPrec op + 1) r) ++ [')']
    else
      printCtx (opPrec op) l ++ op :: printCtx (opPrec op + 1) r

/-- A whole printed expression (top level = expression context). -/
def printExpr (e : AExp) : List Char := printCtx 1 e

/-- The token sequence of a printed expression. -/
def toksCtx (ctx : Nat) : AExp → List Token
  | .num ds => [(TokType.NUMBER, ds)]
  | .bop op l r =>
    if opPrec op < ctx then
      (TokType.PAREN, ['(']) ::
        (toksCtx (opPrec op) l ++
          (TokType.OPERATOR, [op]) :: toksCtx (opPrec op + 1) r) ++
        [(TokType.PAREN, [')'])]
    else
      toksCtx (opPrec op) l ++ (TokType.OPERATOR, [op]) :: toksCtx (opPrec op + 1) r

/-- The parse tree the parser builds for a printed expression. -/
def AExp.tree : AExp → Node
  | .num ds => .number ds
  | .bop op l r => .bin_op [op] (some l.tree) (some r.tree)

/-- The reference denotation — the mathematically correct value under
exact arithmetic; `none` exactly when a division by zero occurs (no
mathematically correct value exists there, and the implementation
raises, see C3). -/
def denote : AExp → Option ℚ
  | .num ds => pyFloat ds
  | .bop op l r =>
    match denote l, denote r with
    | some lv, some rv =>
      if op = '+' then some (lv + rv)
      else if op = '-' then some (lv - rv)
      else if op = '*' then some (lv * rv)
      else if rv = 0 then none
      else some (lv / rv)
    | _, _ => none

/-- Structural size, the measure for the parser-correctness induction. -/
def AExp.size : AExp → Nat
  | .num _ => 1
  | .bop _ l r => l.size + r.size + 1

theorem AExp.size_pos (e : AExp) : 1 ≤ e.size := by
  cases e <;> simp [AExp.size] <;> omega

/-- The evaluator computes the denotation of a well-formed tree (for
any table: the tree has no identifiers). -/
theorem evaluate_tree (e : AExp) : ∀ (v : ℚ) (st : SymbolTable),
    AExp.wf e = true → denote e = some v → evaluate (some e.tree) st = .ok v := by
  induction e with
  | num ds =>
    intro v st _ hd
    simp only [denote] at hd
    simp [evaluate, AExp.tree, hd]
  | bop op l r ihl ihr =>
    intro v st hw hd
    simp only [AExp.wf, Bool.and_eq_true, Bool.or_eq_true, beq_iff_eq] at hw
    obtain ⟨⟨hop, hwl⟩, hwr⟩ := hw
    simp only [denote] at hd
    rcases hdl : denote l with _ | lv <;> rw [hdl] at hd
    · simp at hd
    rcases hdr : denote r with _ | rv <;> rw [hdr] at hd
    · simp at hd
    have el := ihl lv st hwl hdl
    have er := ihr rv st hwr hdr
    simp only [AExp.tree]
    rcases hop with ((h | h) | h) | h <;> subst h
    · simp at hd
      simp [evaluate, el, er, hd]
    · simp at hd
      simp [evaluate, el, er, hd]
    · simp at hd
      simp [evaluate, el, er, hd]
    · by_cases h0 : rv = 0
      · simp [h0] at hd
      · simp [h0] at hd
        simp [evaluate, el, er, h0, hd]

/-! ### Lexing a printed expression -/

theorem takeWhile_all_append {p : Char → Bool} {a : List Char} (b : List Char)
    (ha : a.all p = true)
    (hb : b = [] ∨ ∃ c b', b = c :: b' ∧ p c = false) :
    (a ++ b).takeWhile p = a ∧ (a ++ b).dropWhile p = b := by
  induction a with
  | nil =>
    rcases hb with rfl | ⟨c, b', rfl, hc⟩
    · simp
    · simp [List.takeWhile_cons, List.dropWhile_cons, hc]
  | cons x a' ih =>
    simp only [List.all_cons, Bool.and_eq_true] at ha
    have h2 := ih ha.2
    simp [List.takeWhile_cons, List.dropWhile_cons, ha.1, h2.1, h2.2]

/-- The characters that may legally follow a printed subexpression in
the middle of a printed expression: nothing, or an operator or a
parenthesis. -/
def lexFollow : List Char → Prop
  | [] => True
  | c :: _ => c = '+' ∨ c = '-' ∨ c = '*' ∨ c = '/' ∨ c = '(' ∨ c = ')'

theorem tokenize_step_number {d : Char} {ds' : List Char} (s : List Char)
    (hd : d.isDigit = true) (hds : ds'.all Char.isDigit = true)
    (hs : lexFollow s) :
    tokenize (d :: (ds' ++ s)) = (TokType.NUMBER, d :: ds') :: tokenize s := by
  have hsplit := takeWhile_all_append (p := Char.isDigit) s hds ?fol
  case fol =>
    rcases s with _ | ⟨c, s'⟩
    · exact Or.inl rfl
    · refine Or.inr ⟨c, s', rfl, ?_⟩
      rcases hs with h | h | h | h | h | h <;> subst h <;> decide
  rw [tokenize.eq_def]
  simp only [hd, if_true]
  split
  · next r2 heq =>
    rw [hsplit.2] at heq
    subst heq
    rcases hs with h | h | h | h | h | h <;> simp at h
  · next heq =>
    rw [hsplit.1, hsplit.2]

theorem tokenize_step_op {c : Char} (s : List Char)
    (hc : c = '+' ∨ c = '-' ∨ c = '*' ∨ c = '/') :
    tokenize (c :: s) = (TokType.OPERATOR, [c]) :: tokenize s := by
  rcases hc with h | h | h | h <;> subst h <;> simp [tokenize] <;> decide

theorem tokenize_step_lparen (s : List Char) :
    tokenize ('(' :: s) = (TokType.PAREN, ['(']) :: tokenize s := by
  simp [tokenize]
  decide

theorem tokenize_step_rparen (s : List Char) :
    tokenize (')' :: s) = (TokType.PAREN, [')']) :: tokenize s := by
  simp [tokenize]
  decide

/-- Lexing a printed well-formed expression followed by any legal
continuation yields its token sequence followed by the lexing of the
continuation. -/
theorem tokenize_printCtx (e : AExp) : ∀ (ctx : Nat) (s : List Char),
    AExp.wf e = true → lexFollow s →
    tokenize (printCtx ctx e ++ s) = toksCtx ctx e ++ tokenize s := by
  induction e with
  | num ds =>
    intro ctx s hw hs
    simp only [AExp.wf, Bool.and_eq_true, Bool.not_eq_true'] at hw
    obtain ⟨hne, hdig⟩ := hw
    rcases ds with _ | ⟨d, ds'⟩
    · simp [List.isEmpty] at hne
    · simp only [List.all_cons, Bool.and_eq_true] at hdig
      simp only [printCtx, toksCtx, List.cons_append]
      rw [tokenize_step_number s hdig.1 hdig.2 hs]
      rfl
  | bop op l r ihl ihr =>
    intro ctx s hw hs
    simp only [AExp.wf, Bool.and_eq_true, Bool.or_eq_true, beq_iff_eq] at hw
    obtain ⟨⟨hop, hwl⟩, hwr⟩ := hw
    have hopfol : ∀ t : List Char, lexFollow (op :: t) := by
      intro t
      rcases hop with ((h | h) | h) | h <;> subst h <;> simp [lexFollow]
    have hopc : op = '+' ∨ op = '-' ∨ op = '*' ∨ op = '/' := by
      rcases hop with ((h | h) | h) | h <;> simp [h]
    by_cases hp : opPrec op < ctx
    · simp only [printCtx, toksCtx, if_pos hp, List.cons_append,
        List.append_assoc, List.singleton_append]
      rw [tokenize_step_lparen,
        ihl (opPrec op) _ hwl (hopfol _),
        tokenize_step_op _ hopc]
      simp only [List.nil_append]
      rw [ihr (opPrec op + 1) (')' :: s) hwr (by simp [lexFollow]),
        tokenize_step_rparen]
    · simp only [printCtx, toksCtx, if_neg hp, List.cons_append,
        List.append_assoc, List.singleton_append]
      rw [ihl (opPrec op) _ hwl (hopfol _),
        tokenize_step_op _ hopc,
        ihr (opPrec op + 1) s hwr hs]

/-! ### Parsing a printed expression

The printed token stream of an expression at term level is a factor
followed by a `* /`-chain; at expression level a term followed by a
`+ -`-chain.  The spine functions below flatten the left-associated
syntax tree into that head-plus-chain shape, and the loop lemmas replay
the parser's `while` loops along a chain. -/

/-- Flatten the multiplicative left spine: head factor and the
`(operator, factor)` chain the `parse_term` loop consumes. -/
def tChain : AExp → AExp × List (Char × AExp)
  | .num ds => (.num ds, [])
  | .bop op l r =>
    if op == '*' || op == '/' then
      ((tChain l).1, (tChain l).2 ++ [(op, r)])
    else (.bop op l r, [])

/-- Flatten the additive left spine: head term and the
`(operator, term)` chain the `parse_expression` loop consumes. -/
def eChain : AExp → AExp × List (Char × AExp)
  | .num ds => (.num ds, [])
  | .bop op l r =>
    if op == '+' || op == '-' then
      ((eChain l).1, (eChain l).2 ++ [(op, r)])
    else (.bop op l r, [])

/-- Tokens of a multiplicative chain (operands at factor level). -/
def chainT : List (Char × AExp) → List Token
  | [] => []
  | (op, a) :: ch => (TokType.OPERATOR, [op]) :: (toksCtx 3 a ++ chainT ch)

/-- Tokens of an additive chain (operands at term level). -/
def chainE : List (Char × AExp) → List Token
  | [] => []
  | (op, a) :: ch => (TokType.OPERATOR, [op]) :: (toksCtx 2 a ++ chainE ch)

/-- The left fold the parser's loops perform on an operator chain. -/
def foldO : Option Node → List (Char × AExp) → Option Node
  | n, [] => n
  | n, (op, a) :: ch => foldO (some (.bin_op [op] n (some a.tree))) ch

theorem chainT_append (xs ys : List (Char × AExp)) :
    chainT (xs ++ ys) = chainT xs ++ chainT ys := by
  induction xs with
  | nil => rfl
  | cons p xs ih => rcases p with ⟨op, a⟩; simp [chainT, ih]

theorem chainE_append (xs ys : List (Char × AExp)) :
    chainE (xs ++ ys) = chainE xs ++ chainE ys := by
  induction xs with
  | nil => rfl
  | cons p xs ih => rcases p with ⟨op, a⟩; simp [chainE, ih]

theorem foldO_append (n : Option Node) (xs ys : List (Char × AExp)) :
    foldO n (xs ++ ys) = foldO (foldO n xs) ys := by
  induction xs generalizing n with
  | nil => rfl
  | cons p xs ih => rcases p with ⟨op, a⟩; simp [foldO, ih]

theorem opPrec_ge_one (op : Char) : 1 ≤ opPrec op := by
  unfold opPrec; split <;> omega

theorem opPrec_le_two (op : Char) : opPrec op ≤ 2 := by
  unfold opPrec; split <;> omega

theorem opPrec_mul {op : Char} (h : op = '*' ∨ op = '/') : opPrec op = 2 := by
  rcases h with h | h <;> subst h <;> rfl

theorem opPrec_add {op : Char} (h : op = '+' ∨ op = '-') : opPrec op = 1 := by
  rcases h with h | h <;> subst h <;> rfl

theorem toks12_of_mul {op : Char} (l r : AExp) (h : op = '*' ∨ op = '/') :
    toksCtx 1 (.bop op l r) = toksCtx 2 (.bop op l r) := by
  simp [toksCtx, opPrec_mul h]

theorem toks23_of_add {op : Char} (l r : AExp) (h : op = '+' ∨ op = '-') :
    toksCtx 2 (.bop op l r) = toksCtx 3 (.bop op l r) := by
  simp [toksCtx, opPrec_add h]

theorem toks3_paren (op : Char) (l r : AExp) :
    toksCtx 3 (.bop op l r) =
      (TokType.PAREN, ['(']) ::
        (toksCtx 1 (.bop op l r) ++ [(TokType.PAREN, [')'])]) := by
  have h1 : opPrec op < 3 := by have := opPrec_le_two op; omega
  have h2 : ¬ opPrec op < 1 := by have := opPrec_ge_one op; omega
  simp [toksCtx, h1, h2]

theorem toksCtx_length_pos (c : Nat) (e : AExp) : 1 ≤ (toksCtx c e).length := by
  cases e with
  | num ds => simp [toksCtx]
  | bop op l r =>
    simp only [toksCtx]
    split <;> simp [List.length_append, List.length_cons] <;> omega

theorem tChain_size (e : AExp) :
    (tChain e).1.size ≤ e.size ∧ ∀ p ∈ (tChain e).2, (p.2 : AExp).size < e.size := by
  induction e with
  | num ds => simp [tChain]
  | bop op l r ihl ihr =>
    by_cases hm : (op == '*' || op == '/') = true
    · simp only [tChain, if_pos hm]
      constructor
      · have := ihl.1; simp [AExp.size]; omega
      · intro p hp
        rcases List.mem_append.1 hp with hp | hp
        · have := ihl.2 p hp; simp [AExp.size]; omega
        · simp at hp
          subst hp
          simp [AExp.size]
          omega
    · simp [tChain, hm]

theorem eChain_size (e : AExp) :
    (eChain e).1.size ≤ e.size ∧ ∀ p ∈ (eChain e).2, (p.2 : AExp).size < e.size := by
  induction e with
  | num ds => simp [eChain]
  | bop op l r ihl ihr =>
    by_cases hm : (op == '+' || op == '-') = true
    · simp only [eChain, if_pos hm]
      constructor
      · have := ihl.1; simp [AExp.size]; omega
      · intro p hp
        rcases List.mem_append.1 hp with hp | hp
        · have := ihl.2 p hp; simp [AExp.size]; omega
        · simp at hp
          subst hp
          simp [AExp.size]
          omega
    · simp [eChain, hm]

theorem tChain_wf (e : AExp) (hw : e.wf = true) :
    (tChain e).1.wf = true ∧
      ∀ p ∈ (tChain e).2, (p.1 = '*' ∨ p.1 = '/') ∧ (p.2 : AExp).wf = true := by
  induction e with
  | num ds => simpa [tChain] using hw
  | bop op l r ihl ihr =>
    simp only [AExp.wf, Bool.and_eq_true] at hw
    obtain ⟨⟨hop, hwl⟩, hwr⟩ := hw
    by_cases hm : (op == '*' || op == '/') = true
    · simp only [tChain, if_pos hm]
      have ih := ihl hwl
      refine ⟨ih.1, ?_⟩
      intro p hp
      rcases List.mem_append.1 hp with hp | hp
      · exact ih.2 p hp
      · simp at hp
        subst hp
        simp only [Bool.or_eq_true, beq_iff_eq] at hm
        exact ⟨hm, hwr⟩
    · simp only [tChain, if_neg hm]
      refine ⟨?_, by simp⟩
      simp [AExp.wf, hop, hwl, hwr]

theorem eChain_wf (e : AExp) (hw : e.wf = true) :
    (eChain e).1.wf = true ∧
      ∀ p ∈ (eChain e).2, (p.1 = '+' ∨ p.1 = '-') ∧ (p.2 : AExp).wf = true := by
  induction e with
  | num ds => simpa [eChain] using hw
  | bop op l r ihl ihr =>
    simp only [AExp.wf, Bool.and_eq_true] at hw
    obtain ⟨⟨hop, hwl⟩, hwr⟩ := hw
    by_cases hm : (op == '+' || op == '-') = true
    · simp only [eChain, if_pos hm]
      have ih := ihl hwl
      refine ⟨ih.1, ?_⟩
      intro p hp
      rcases List.mem_append.1 hp with hp | hp
      · exact ih.2 p hp
      · simp at hp
        subst hp
        simp only [Bool.or_eq_true, beq_iff_eq] at hm
        exact ⟨hm, hwr⟩
    · simp only [eChain, if_neg hm]
      refine ⟨?_, by simp⟩
      simp [AExp.wf, hop, hwl, hwr]

theorem toks2_tChain (e : AExp) (hw : e.wf = true) :
    toksCtx 2 e = toksCtx 3 (tChain e).1 ++ chainT (tChain e).2 := by
  induction e with
  | num ds => simp [toksCtx, tChain, chainT]
  | bop op l r ihl ihr =>
    simp only [AExp.wf, Bool.and_eq_true, Bool.or_eq_true, beq_iff_eq] at hw
    obtain ⟨⟨hop, hwl⟩, hwr⟩ := hw
    by_cases hm : (op == '*' || op == '/') = true
    · have hmP : op = '*' ∨ op = '/' := by simpa using hm
      have hprec : opPrec op = 2 := opPrec_mul hmP
      simp only [tChain, if_pos hm]
      simp only [toksCtx, hprec]
      rw [if_neg (by omega : ¬ (2:Nat) < 2)]
      rw [ihl hwl, chainT_append]
      simp [chainT, List.append_assoc]
    · have hadd : op = '+' ∨ op = '-' := by
        simp only [Bool.or_eq_true, beq_iff_eq] at hm
        rcases hop with ((h | h) | h) | h <;> tauto
      rw [toks23_of_add l r hadd]
      simp only [tChain, if_neg hm, chainT]
      simp

theorem toks1_eChain (e : AExp) (hw : e.wf = true) :
    toksCtx 1 e = toksCtx 2 (eChain e).1 ++ chainE (eChain e).2 := by
  induction e with
  | num ds => simp [toksCtx, eChain, chainE]
  | bop op l r ihl ihr =>
    simp only [AExp.wf, Bool.and_eq_true, Bool.or_eq_true, beq_iff_eq] at hw
    obtain ⟨⟨hop, hwl⟩, hwr⟩ := hw
    by_cases hm : (op == '+' || op == '-') = true
    · have hmP : op = '+' ∨ op = '-' := by simpa using hm
      have hprec : opPrec op = 1 := opPrec_add hmP
      simp only [eChain, if_pos hm]
      simp only [toksCtx, hprec]
      rw [if_neg (by omega : ¬ (1:Nat) < 1)]
      rw [ihl hwl, chainE_append]
      simp [chainE, List.append_assoc]
    · have hmul : op = '*' ∨ op = '/' := by
        simp only [Bool.or_eq_true, beq_iff_eq] at hm
        rcases hop with ((h | h) | h) | h <;> tauto
      rw [toks12_of_mul l r hmul]
      simp only [eChain, if_neg hm, chainE]
      simp

theorem tree_tChain (e : AExp) :
    foldO (some (tChain e).1.tree) (tChain e).2 = some e.tree := by
  induction e with
  | num ds => simp [tChain, foldO]
  | bop op l r ihl ihr =>
    by_cases hm : (op == '*' || op == '/') = true
    · simp only [tChain, if_pos hm]
      rw [foldO_append, ihl]
      simp [foldO, AExp.tree]
    · simp [tChain, hm, foldO]

theorem tree_eChain (e : AExp) :
    foldO (some (eChain e).1.tree) (eChain e).2 = some e.tree := by
  induction e with
  | num ds => simp [eChain, foldO]
  | bop op l r ihl ihr =>
    by_cases hm : (op == '+' || op == '-') = true
    · simp only [eChain, if_pos hm]
      rw [foldO_append, ihl]
      simp [foldO, AExp.tree]
    · simp [eChain, hm, foldO]

/-- The head of the remaining tokens does not continue a `parse_term`
loop (its text is not a substring of `"*/"`). -/
def noMulDivHead : List Token → Prop
  | [] => True
  | (_, tv) :: _ => pyInStr tv ['*', '/'] = false

/-- The head of the remaining tokens continues neither loop. -/
def noOpHead : List Token → Prop
  | [] => True
  | (_, tv) :: _ => pyInStr tv ['*', '/'] = false ∧ pyInStr tv ['+', '-'] = false

theorem noOpHead_noMulDiv {rest : List Token} (h : noOpHead rest) :
    noMulDivHead rest := by
  rcases rest with _ | ⟨⟨tt, tv⟩, r'⟩
  · trivial
  · exact h.1

theorem noMulDivHead_chainE (ch : List (Char × AExp)) (rest : List Token)
    (hch : ∀ p ∈ ch, (p.1 : Char) = '+' ∨ (p.1 : Char) = '-')
    (hr : noOpHead rest) : noMulDivHead (chainE ch ++ rest) := by
  rcases ch with _ | ⟨⟨op, a⟩, ch'⟩
  · simpa [chainE] using noOpHead_noMulDiv hr
  · have hop := hch (op, a) (by simp)
    simp only [chainE, List.cons_append, noMulDivHead]
    rcases hop with h | h <;> subst h <;> decide

theorem term_loop_stop (node : Option Node) (rest : List Token) (f : ErrFlag)
    (fuel : Nat) (h : 1 ≤ fuel) (hr : noMulDivHead rest) :
    term_loop fuel node rest f = .ok (node, rest, f) := by
  obtain ⟨g, rfl⟩ : ∃ g, fuel = g + 1 := ⟨fuel - 1, by omega⟩
  rcases rest with _ | ⟨⟨tt, tv⟩, r'⟩
  · rfl
  · have hc : pyInStr tv ['*', '/'] = false := hr
    simp [term_loop, hc]

theorem expr_loop_stop (node : Option Node) (rest : List Token) (f : ErrFlag)
    (fuel : Nat) (h : 1 ≤ fuel) (hr : noOpHead rest) :
    expr_loop fuel node rest f = .ok (node, rest, f) := by
  obtain ⟨g, rfl⟩ : ∃ g, fuel = g + 1 := ⟨fuel - 1, by omega⟩
  rcases rest with _ | ⟨⟨tt, tv⟩, r'⟩
  · rfl
  · have hc : pyInStr tv ['+', '-'] = false := hr.2
    simp [expr_loop, hc]

theorem term_loop_chain (ch : List (Char × AExp)) :
    ∀ (node : Option Node) (rest : List Token) (f : ErrFlag) (fuel : Nat),
    (∀ p ∈ ch, ((p.1 : Char) = '*' ∨ (p.1 : Char) = '/') ∧
      ∀ (rest' : List Token) (f' : ErrFlag) (fuel' : Nat),
        5 * (toksCtx 3 p.2 ++ rest').length + 1 ≤ fuel' →
        parse_factor fuel' (toksCtx 3 p.2 ++ rest') f' =
          .ok (some (p.2 : AExp).tree, rest', f')) →
    noMulDivHead rest →
    5 * (chainT ch ++ rest).length + 1 ≤ fuel →
    term_loop fuel node (chainT ch ++ rest) f = .ok (foldO node ch, rest, f) := by
  induction ch with
  | nil =>
    intro node rest f fuel _ hr hfuel
    simp only [chainT, List.nil_append, foldO]
    exact term_loop_stop node rest f fuel (by omega) hr
  | cons p ch' ih =>
    rcases p with ⟨op, a⟩
    intro node rest f fuel hch hr hfuel
    obtain ⟨hop, hPF⟩ := hch (op, a) (by simp)
    simp only [chainT, List.cons_append, List.append_assoc] at hfuel ⊢
    simp only [List.length_cons, List.length_append] at hfuel
    obtain ⟨g, rfl⟩ : ∃ g, fuel = g + 1 := ⟨fuel - 1, by omega⟩
    have hcond : pyInStr [op] ['*', '/'] = true := by
      rcases hop with h | h <;> subst h <;> decide
    simp only [term_loop, hcond, if_true]
    rw [hPF (chainT ch' ++ rest) f g
      (by simp [List.length_append]; omega)]
    exact ih (some (.bin_op [op] node (some a.tree))) rest f g
      (fun p hp => hch p (by simp [hp]))
      hr (by simp [List.length_append]; omega)

theorem expr_loop_chain (ch : List (Char × AExp)) :
    ∀ (node : Option Node) (rest : List Token) (f : ErrFlag) (fuel : Nat),
    (∀ p ∈ ch, ((p.1 : Char) = '+' ∨ (p.1 : Char) = '-') ∧
      ∀ (rest' : List Token) (f' : ErrFlag) (fuel' : Nat),
        5 * (toksCtx 2 p.2 ++ rest').length + 2 ≤ fuel' →
        noMulDivHead rest' →
        parse_term fuel' (toksCtx 2 p.2 ++ rest') f' =
          .ok (some (p.2 : AExp).tree, rest', f')) →
    noOpHead rest →
    5 * (chainE ch ++ rest).length + 2 ≤ fuel →
    expr_loop fuel node (chainE ch ++ rest) f = .ok (foldO node ch, rest, f) := by
  induction ch with
  | nil =>
    intro node rest f fuel _ hr hfuel
    simp only [chainE, List.nil_append, foldO]
    exact expr_loop_stop node rest f fuel (by omega) hr
  | cons p ch' ih =>
    rcases p with ⟨op, a⟩
    intro node rest f fuel hch hr hfuel
    obtain ⟨hop, hPT⟩ := hch (op, a) (by simp)
    simp only [chainE, List.cons_append, List.append_assoc] at hfuel ⊢
    simp only [List.length_cons, List.length_append] at hfuel
    obtain ⟨g, rfl⟩ : ∃ g, fuel = g + 1 := ⟨fuel - 1, by omega⟩
    have hcond : pyInStr [op] ['+', '-'] = true := by
      rcases hop with h | h <;> subst h <;> decide
    simp only [expr_loop, hcond, if_true]
    rw [hPT (chainE ch' ++ rest) f g
      (by simp [List.length_append]; omega)
      (noMulDivHead_chainE ch' rest (fun p hp => (hch p (by simp [hp])).1) hr)]
    exact ih (some (.bin_op [op] node (some a.tree))) rest f g
      (fun p hp => hch p (by simp [hp]))
      hr (by simp [List.length_append]; omega)

/-- Correctness statement at factor level: the parser consumes exactly
the printed tokens and returns the printed tree, for any fuel meeting
the driver's budget. -/
def PF (e : AExp) : Prop :=
  ∀ (rest : List Token) (f : ErrFlag) (fuel : Nat),
    5 * (toksCtx 3 e ++ rest).length + 1 ≤ fuel →
    parse_factor fuel (toksCtx 3 e ++ rest) f = .ok (some e.tree, rest, f)

/-- Correctness statement at term level. -/
def PT (e : AExp) : Prop :=
  ∀ (rest : List Token) (f : ErrFlag) (fuel : Nat),
    5 * (toksCtx 2 e ++ rest).length + 2 ≤ fuel →
    noMulDivHead rest →
    parse_term fuel (toksCtx 2 e ++ rest) f = .ok (some e.tree, rest, f)

/-- Correctness statement at expression level. -/
def PE (e : AExp) : Prop :=
  ∀ (rest : List Token) (f : ErrFlag) (fuel : Nat),
    5 * (toksCtx 1 e ++ rest).length + 3 ≤ fuel →
    noOpHead rest →
    parse_expression fuel (toksCtx 1 e ++ rest) f = .ok (some e.tree, rest, f)

theorem parse_factor_number_ok (g : Nat) (ds : List Char) (rest : List Token)
    (f : ErrFlag) :
    parse_factor (g + 1) ((TokType.NUMBER, ds) :: rest) f =
      .ok (some (.number ds), rest, f) := by
  simp [parse_factor]

theorem parse_factor_paren_ok (g : Nat) (ts rest : List Token) (f f1 : ErrFlag)
    (res : Option Node)
    (hin : parse_expression g ts f = .ok (res, (TokType.PAREN, [')']) :: rest, f1)) :
    parse_factor (g + 1) ((TokType.PAREN, ['(']) :: ts) f = .ok (res, rest, f1) := by
  simp [parse_factor, hin]

theorem parse_term_ok (g : Nat) (ts rest : List Token) (f f1 : ErrFlag)
    (node : Option Node) (r : Option Node × List Token × ErrFlag)
    (hfac : parse_factor g ts f = .ok (node, rest, f1))
    (hloop : term_loop g node rest f1 = .ok r) :
    parse_term (g + 1) ts f = .ok r := by
  simp only [parse_term, hfac, hloop]

theorem parse_expression_ok (g : Nat) (ts rest : List Token) (f f1 : ErrFlag)
    (node : Option Node) (r : Option Node × List Token × ErrFlag)
    (hterm : parse_term g ts f = .ok (node, rest, f1))
    (hloop : expr_loop g node rest f1 = .ok r) :
    parse_expression (g + 1) ts f = .ok r := by
  simp only [parse_expression, hterm, hloop]

theorem PF_num (ds : List Char) : PF (.num ds) := by
  intro rest f fuel hfuel
  simp only [toksCtx, List.cons_append, List.nil_append] at hfuel ⊢
  obtain ⟨g, rfl⟩ : ∃ g, fuel = g + 1 := ⟨fuel - 1, by omega⟩
  exact parse_factor_number_ok g ds rest f

theorem PT_of_PF (e : AExp) (h23 : toksCtx 2 e = toksCtx 3 e) (hPF : PF e) :
    PT e := by
  intro rest f fuel hfuel hrest
  rw [h23] at hfuel ⊢
  obtain ⟨g, rfl⟩ : ∃ g, fuel = g + 1 := ⟨fuel - 1, by omega⟩
  exact parse_term_ok g _ rest f f (some e.tree) _
    (hPF rest f g (by omega))
    (term_loop_stop _ rest f g (by omega) hrest)

theorem PE_of_PT (e : AExp) (h12 : toksCtx 1 e = toksCtx 2 e) (hPT : PT e) :
    PE e := by
  intro rest f fuel hfuel hrest
  rw [h12] at hfuel ⊢
  obtain ⟨g, rfl⟩ : ∃ g, fuel = g + 1 := ⟨fuel - 1, by omega⟩
  exact parse_expression_ok g _ rest f f (some e.tree) _
    (hPT rest f g (by omega) (noOpHead_noMulDiv hrest))
    (expr_loop_stop _ rest f g (by omega) hrest)

theorem PF_bop_of_PE (op : Char) (l r : AExp) (hPE : PE (.bop op l r)) :
    PF (.bop op l r) := by
  intro rest f fuel hfuel
  rw [toks3_paren] at hfuel ⊢
  simp only [List.cons_append, List.append_assoc, List.singleton_append] at hfuel ⊢
  simp only [List.length_cons, List.length_append] at hfuel
  obtain ⟨g, rfl⟩ : ∃ g, fuel = g + 1 := ⟨fuel - 1, by omega⟩
  exact parse_factor_paren_ok g _ rest f f (some (AExp.bop op l r).tree)
    (hPE ((TokType.PAREN, [')']) :: rest) f g
      (by simp [List.length_append]; omega)
      (by exact ⟨by decide, by decide⟩))

theorem PT_bop_mul (op : Char) (l r : AExp)
    (hw : (AExp.bop op l r).wf = true)
    (hPFhead : PF (tChain (.bop op l r)).1)
    (hPFch : ∀ p ∈ (tChain (.bop op l r)).2, PF (p.2 : AExp)) :
    PT (.bop op l r) := by
  intro rest f fuel hfuel hrest
  rw [toks2_tChain _ hw, List.append_assoc] at hfuel ⊢
  simp only [List.length_append] at hfuel
  have hlen := toksCtx_length_pos 3 (tChain (.bop op l r)).1
  obtain ⟨g, rfl⟩ : ∃ g, fuel = g + 1 := ⟨fuel - 1, by omega⟩
  refine parse_term_ok g _ _ f f _ _
    (hPFhead (chainT (tChain (.bop op l r)).2 ++ rest) f g
      (by simp [List.length_append]; omega)) ?_
  rw [term_loop_chain (tChain (.bop op l r)).2
    (some (tChain (.bop op l r)).1.tree) rest f g
    (fun p hp => ⟨((tChain_wf _ hw).2 p hp).1, hPFch p hp⟩)
    hrest (by simp [List.length_append]; omega)]
  rw [tree_tChain]

theorem PE_bop_add (op : Char) (l r : AExp)
    (hw : (AExp.bop op l r).wf = true)
    (hPThead : PT (eChain (.bop op l r)).1)
    (hPTch : ∀ p ∈ (eChain (.bop op l r)).2, PT (p.2 : AExp)) :
    PE (.bop op l r) := by
  intro rest f fuel hfuel hrest
  rw [toks1_eChain _ hw, List.append_assoc] at hfuel ⊢
  simp only [List.length_append] at hfuel
  have hlen := toksCtx_length_pos 2 (eChain (.bop op l r)).1
  obtain ⟨g, rfl⟩ : ∃ g, fuel = g + 1 := ⟨fuel - 1, by omega⟩
  refine parse_expression_ok g _ _ f f _ _
    (hPThead (chainE (eChain (.bop op l r)).2 ++ rest) f g
      (by simp [List.length_append]; omega)
      (noMulDivHead_chainE _ rest
        (fun p hp => ((eChain_wf _ hw).2 p hp).1) hrest)) ?_
  rw [expr_loop_chain (eChain (.bop op l r)).2
    (some (eChain (.bop op l r)).1.tree) rest f g
    (fun p hp => ⟨((eChain_wf _ hw).2 p hp).1, hPTch p hp⟩)
    hrest (by simp [List.length_append]; omega)]
  rw [tree_eChain]

/-- The recursive-descent parser maps the printed form of every
well-formed expression to its syntax tree, at every grammar level
(strong induction on the expression's size). -/
theorem parse_printed : ∀ (N : Nat) (e : AExp), e.size ≤ N → e.wf = true →
    PF e ∧ PT e ∧ PE e := by
  intro N
  induction N with
  | zero =>
    intro e he _
    have := AExp.size_pos e
    omega
  | succ N IH =>
    intro e he hw
    rcases e with ⟨ds⟩ | ⟨op, l, r⟩
    · have hPF := PF_num ds
      have hPT := PT_of_PF (.num ds) rfl hPF
      have hPE := PE_of_PT (.num ds) rfl hPT
      exact ⟨hPF, hPT, hPE⟩
    · have hw' := hw
      simp only [AExp.wf, Bool.and_eq_true, Bool.or_eq_true, beq_iff_eq] at hw'
      obtain ⟨⟨hop, hwl⟩, hwr⟩ := hw'
      have he' : l.size + r.size + 1 ≤ N + 1 := by simpa [AExp.size] using he
      have hcls : (op = '*' ∨ op = '/') ∨ (op = '+' ∨ op = '-') := by tauto
      rcases hcls with hmul | hadd
      · have hb : (op == '*' || op == '/') = true := by
          rcases hmul with h | h <;> simp [h]
        have hhd1 : (tChain (.bop op l r)).1 = (tChain l).1 := by
          simp [tChain, hb]
        have hheadsz : (tChain (.bop op l r)).1.size ≤ N := by
          rw [hhd1]
          have := (tChain_size l).1
          omega
        have hPFhead : PF (tChain (.bop op l r)).1 :=
          (IH _ hheadsz (tChain_wf _ hw).1).1
        have hPFch : ∀ p ∈ (tChain (.bop op l r)).2, PF (p.2 : AExp) := by
          intro p hp
          have hpsz := (tChain_size (.bop op l r)).2 p hp
          simp only [AExp.size] at hpsz
          have hpwf := ((tChain_wf _ hw).2 p hp).2
          exact (IH _ (by omega) hpwf).1
        have hPT := PT_bop_mul op l r hw hPFhead hPFch
        have hPE := PE_of_PT _ (toks12_of_mul l r hmul) hPT
        have hPF := PF_bop_of_PE op l r hPE
        exact ⟨hPF, hPT, hPE⟩
      · have hb : (op == '+' || op == '-') = true := by
          rcases hadd with h | h <;> simp [h]
        have hhd1 : (eChain (.bop op l r)).1 = (eChain l).1 := by
          simp [eChain, hb]
        have hheadsz : (eChain (.bop op l r)).1.size ≤ N := by
          rw [hhd1]
          have := (eChain_size l).1
          omega
        have hPThead : PT (eChain (.bop op l r)).1 :=
          (IH _ hheadsz (eChain_wf _ hw).1).2.1
        have hPTch : ∀ p ∈ (eChain (.bop op l r)).2, PT (p.2 : AExp) := by
          intro p hp
          have hpsz := (eChain_size (.bop op l r)).2 p hp
          simp only [AExp.size] at hpsz
          have hpwf := ((eChain_wf _ hw).2 p hp).2
          exact (IH _ (by omega) hpwf).2.1
        have hPE := PE_bop_add op l r hw hPThead hPTch
        have hPF := PF_bop_of_PE op l r hPE
        have hPT := PT_of_PF _ (toks23_of_add l r hadd) hPF
        exact ⟨hPF, hPT, hPE⟩

/-- A printed well-formed expression contains no `'='`, so the driver
takes the evaluation (non-assignment) branch on it. -/
theorem printCtx_no_eq (e : AExp) : ∀ (ctx : Nat), AExp.wf e = true →
    '=' ∉ printCtx ctx e := by
  induction e with
  | num ds =>
    intro ctx hw hmem
    simp only [AExp.wf, Bool.and_eq_true] at hw
    have hd := List.all_eq_true.1 hw.2 _ hmem
    simp at hd
  | bop op l r ihl ihr =>
    intro ctx hw hmem
    have hw' := hw
    simp only [AExp.wf, Bool.and_eq_true, Bool.or_eq_true, beq_iff_eq] at hw'
    obtain ⟨⟨hop, hwl⟩, hwr⟩ := hw'
    have hopne : ('=' : Char) ≠ op := by
      rcases hop with ((h | h) | h) | h <;> subst h <;> decide
    by_cases hp : opPrec op < ctx <;>
      simp only [printCtx, if_pos, if_neg, hp, if_true, if_false,
        List.cons_append, List.mem_cons, List.mem_append,
        List.mem_singleton] at hmem
    · rcases hmem with h | ((h | (h | h)) | h)
      · exact absurd h (by decide)
      · exact ihl _ hwl h
      · exact hopne h
      · exact ihr _ hwr h
      · exact absurd h (by decide)
    · rcases hmem with h | (h | h)
      · exact ihl _ hwl h
      · exact hopne h
      · exact ihr _ hwr h

/-- The whole pipeline maps the printed form of every well-formed
expression with a defined denotation to that value, leaving the table
untouched. -/
theorem process_printed (e : AExp) (v : ℚ) (st : SymbolTable)
    (hw : AExp.wf e = true) (hd : denote e = some v) :
    process_expression (printExpr e) st = (Outcome.evaluationResult v, st) := by
  have hne : '=' ∉ printExpr e := printCtx_no_eq e 1 hw
  have htok : tokenize (printExpr e) = toksCtx 1 e := by
    have h := tokenize_printCtx e 1 [] hw trivial
    simpa [printExpr, show tokenize [] = [] from by simp [tokenize]] using h
  have hPE := (parse_printed e.size e (Nat.le_refl _) hw).2.2
  have hparse : parse_expression (5 * (toksCtx 1 e).length + 5) (toksCtx 1 e)
      none = .ok (some e.tree, [], none) := by
    have h := hPE [] none (5 * (toksCtx 1 e).length + 5)
      (by simp [List.length_append]) trivial
    simpa using h
  unfold process_expression
  rw [if_neg hne, htok]
  unfold expr_step runParser
  rw [hparse]
  simp [evaluate_tree e v st hw hd]

/-- C6: for every valid variable-free arithmetic expression —
universally, every well-formed `AExp` in its minimally parenthesized
printed form, which includes the claim's examples — evaluation succeeds
and equals the mathematically correct value under standard precedence
(`* /` over `+ -`) and left associativity, whenever that value is
defined (a division by zero has no mathematical value and raises, see
C3); in particular `"2 + 3 * 4"` evaluates to `14` and `"(2 + 3) * 4"`
to `20`, for every table state. -/
theorem C6_precedence_and_associativity :
    (∀ (e : AExp) (v : ℚ) (st : SymbolTable), AExp.wf e = true →
      denote e = some v →
      process_expression (printExpr e) st = (Outcome.evaluationResult v, st))
  ∧ (∀ st : SymbolTable, process_expression ("2 + 3 * 4".toList) st =
      (Outcome.evaluationResult 14, st))
  ∧ (∀ st : SymbolTable, process_expression ("(2 + 3) * 4".toList) st =
      (Outcome.evaluationResult 20, st)) := by
  refine ⟨process_printed, ?_, ?_⟩
  · intro st
    with_unfolding_all rfl
  · intro st
    with_unfolding_all rfl

theorem C6_witness :
    process_expression (printExpr (AExp.bop '*' (AExp.num ['6']) (AExp.num ['7'])))
      SymbolTable.empty = (Outcome.evaluationResult 42, SymbolTable.empty) :=
  C6_precedence_and_associativity.1
    (AExp.bop '*' (AExp.num ['6']) (AExp.num ['7'])) 42 SymbolTable.empty
    (by decide) (by with_unfolding_all decide)
